import Mathlib

/-!
Verification of the feature-detection → rule-recommendation pipeline of
`grule.py` (epodak/agent-rules).

The Python source is shallowly embedded below:

* `ProjectFeature`, `RuleRecommendation`, `RuleDefinition` mirror the
  dataclasses / configuration entries.  The `confidence` field (a float that
  defaults to `1.0` and is never read nor set anywhere in the recommendation
  pipeline) is omitted from the embedding; `description` on features is kept.
* `RuleEngine._get_default_config` becomes `get_default_config`,
  `RuleEngine._load_config` becomes `load_config` over an abstract
  `ConfigSource` describing the outcome of the file read.
* `RuleEngine.recommend_rules` becomes `recommend_rules`.  The Python dict
  comprehension `{f.key: f.value for f in features}` (last occurrence of a key
  wins) is embedded as `featureGet?` via `find?` on the reversed list; the
  insertion-ordered dict used for deduplication (assignment to an existing key
  keeps its position) is embedded as `dedup`, a left fold over an
  insertion-ordered association list; Python's `sorted(..., key=weight,
  reverse=True)` — a stable sort, descending by weight — is embedded as the
  stable insertion sort `sortByWeightDesc`.
* the `working_directory` context manager and `ProjectAnalyzer.analyze`
  become `working_directory` / `analyze` by explicit passing of the process
  working directory; probes are an abstract body that may change the working
  directory and may raise.
-/

namespace Grule

/-- Mirrors the `ProjectFeature` dataclass of `grule.py` (the unused
`confidence : float = 1.0` field is omitted). -/
structure ProjectFeature where
  key : String
  value : String
  description : String
deriving DecidableEq, Repr

/-- Mirrors the `RuleRecommendation` dataclass of `grule.py` (the unused
`confidence : float = 1.0` field is omitted). -/
structure RuleRecommendation where
  name : String
  reason : String
  weight : Nat
  category : String
deriving DecidableEq, Repr

/-- One entry of the `rules` mapping of a configuration document, as produced
by `RuleEngine._get_default_config` (the `conditions` sub-dictionary is kept
nowhere in the engine, and is omitted here; `tags` is kept). -/
structure RuleDefinition where
  category : String
  description : String
  weight : Nat
  tags : List String
deriving DecidableEq, Repr

/-- A configuration: the `rules` mapping, as an insertion-ordered association
list from rule id to its definition. -/
abbrev RuleConfig := List (String × RuleDefinition)

/-- Embedding of `RuleEngine._get_default_config`. -/
def get_default_config : RuleConfig :=
  [("implement-task",
    ⟨"core", "任务实现规则", 10, ["essential", "development"]⟩),
   ("bug-fix",
    ⟨"core", "Bug修复规则", 10, ["essential", "debugging"]⟩),
   ("quick-wins",
    ⟨"productivity", "快速胜利策略", 8, ["productivity", "optimization"]⟩)]

/-- Outcome of attempting to read the configuration file in
`RuleEngine._load_config`: the file does not exist, it exists but reading or
JSON-parsing raises, or it parses to a `rules` table. -/
inductive ConfigSource where
  | missing
  | unreadable
  | parsed (rules : RuleConfig)
deriving DecidableEq, Repr

/-- Embedding of `RuleEngine._load_config`: a missing file returns the default
configuration; a raised read/parse error is caught, logged as a warning, and
the default configuration is returned; otherwise the parsed document is
returned.  The function is total: no outcome propagates a failure. -/
def load_config : ConfigSource → RuleConfig
  | .missing => get_default_config
  | .unreadable => get_default_config
  | .parsed rules => rules

/-- Embedding of `feature_dict.get(key)` where
`feature_dict = {f.key: f.value for f in features}`: in the Python dict
comprehension the last occurrence of a key wins, hence `find?` on the
reversed list. -/
def featureGet? (features : List ProjectFeature) (key : String) : Option String :=
  (features.reverse.find? fun f => f.key == key).map fun f => f.value

/-- Embedding of `feature_dict.get(key, default)`. -/
def featureGetD (features : List ProjectFeature) (key default : String) : String :=
  (featureGet? features key).getD default

/-- Embedding of `[f.value for f in features if f.key == "languages"]`. -/
def languagesOf (features : List ProjectFeature) : List String :=
  features.filterMap fun f => if f.key == "languages" then some f.value else none

/-- The three always-appended core candidates of `recommend_rules`. -/
def coreRecs : List RuleRecommendation :=
  [⟨"implement-task", "核心开发流程规则", 10, "core"⟩,
   ⟨"bug-fix", "核心开发流程规则", 10, "core"⟩,
   ⟨"quick-wins", "快速胜利策略", 8, "productivity"⟩]

/-- The size-tier branch of `recommend_rules`: `if project_size == "large" …
elif project_size == "medium" … else …`. -/
def sizeRecs (project_size : String) : List RuleRecommendation :=
  if project_size == "large" then
    [⟨"code-analysis", "大型项目需要严格的代码质量控制", 9, "quality"⟩,
     ⟨"pr-review", "大型项目需要代码审查", 8, "collaboration"⟩,
     ⟨"continuous-improvement", "大型项目需要持续改进", 7, "process"⟩]
  else if project_size == "medium" then
    [⟨"code-analysis", "中型项目需要代码质量检查", 7, "quality"⟩,
     ⟨"check", "中型项目需要检查机制", 6, "quality"⟩]
  else
    [⟨"clean", "小型项目重点关注代码整洁", 7, "maintenance"⟩,
     ⟨"commit", "小型项目需要提交规范", 6, "workflow"⟩]

/-- The body of the per-language loop of `recommend_rules`. -/
def langRecs (lang : String) : List RuleRecommendation :=
  if lang == "swift" then
    [⟨"modern-swift", "Swift项目需要现代Swift开发规范", 9, "language_specific"⟩]
  else if ["javascript", "typescript", "python", "java", "csharp"].contains lang then
    [⟨"code-analysis", lang ++ "项目需要代码质量分析", 7, "quality"⟩]
  else
    []

/-- The team-size branch of `recommend_rules`:
`if team_size in ["medium", "large"]`. -/
def teamRecs (team_size : String) : List RuleRecommendation :=
  if ["medium", "large"].contains team_size then
    [⟨"pr-review", "团队项目需要代码审查", 8, "collaboration"⟩,
     ⟨"add-to-changelog", "团队项目需要变更记录", 6, "documentation"⟩]
  else
    []

/-- The candidate appended by the trailing `recommendations.append(...)` of
`recommend_rules`. -/
def trackerRec : RuleRecommendation :=
  ⟨"rule-effectiveness-tracker", "跟踪规则使用效果", 5, "meta"⟩

/-- The full pre-deduplication candidate list built by `recommend_rules`:
core rules, the size branch on `feature_dict.get("project_size", "small")`,
the per-language loop, the team branch on
`feature_dict.get("team_size", "solo")`, the two toolchain checks
(`feature_dict.get(k) == "true"`), and the meta tracker. -/
def rawCandidates (features : List ProjectFeature) : List RuleRecommendation :=
  coreRecs
  ++ sizeRecs (featureGetD features "project_size" "small")
  ++ (languagesOf features).flatMap langRecs
  ++ teamRecs (featureGetD features "team_size" "solo")
  ++ (if featureGet? features "has_testing" == some "true" then
        [⟨"five", "已有测试框架，增强测试质量", 8, "testing"⟩] else [])
  ++ (if featureGet? features "has_git" == some "true" then
        [⟨"commit", "Git项目需要提交规范", 8, "workflow"⟩] else [])
  ++ [trackerRec]

/-- One iteration of the deduplication loop of `recommend_rules`:
`if rec.name not in unique_recommendations or rec.weight >
unique_recommendations[rec.name].weight: unique_recommendations[rec.name] =
rec`.  A Python dict is insertion-ordered and assignment to an existing key
keeps its position, so the accumulator is an insertion-ordered list with the
replacement performed in place. -/
def dedupStep (m : List RuleRecommendation) (rec : RuleRecommendation) :
    List RuleRecommendation :=
  match m.find? fun r => r.name == rec.name with
  | none => m ++ [rec]
  | some old =>
    if old.weight < rec.weight then
      m.map fun r => if r.name == rec.name then rec else r
    else
      m

/-- The deduplication loop of `recommend_rules` over the whole candidate
list. -/
def dedup (recs : List RuleRecommendation) : List RuleRecommendation :=
  recs.foldl dedupStep []

/-- Stable insertion of a candidate into a weight-descending list: the new
element is placed before the first element of weight less than or equal to
its own, i.e. after every strictly heavier element. -/
def insertByWeight (x : RuleRecommendation) :
    List RuleRecommendation → List RuleRecommendation
  | [] => [x]
  | y :: ys =>
    if y.weight ≤ x.weight then x :: y :: ys else y :: insertByWeight x ys

/-- Embedding of `sorted(..., key=lambda x: x.weight, reverse=True)`:
Python's sort is stable, and with `reverse=True` elements of equal key keep
their original relative order; this stable insertion sort computes exactly
that stable weight-descending reordering. -/
def sortByWeightDesc (l : List RuleRecommendation) : List RuleRecommendation :=
  l.foldr insertByWeight []

set_option linter.unusedVariables false in
/-- Embedding of `RuleEngine.recommend_rules`.  The engine object carries the
loaded configuration as `self.config`, available to the method as the
`config` argument here; the method body never reads it. -/
def recommend_rules (config : RuleConfig) (features : List ProjectFeature) :
    List RuleRecommendation :=
  sortByWeightDesc (dedup (rawCandidates features))

/-- Index of the first candidate with the given id in a candidate list (the
first-emission position of that id). -/
def idxOfName (l : List RuleRecommendation) (n : String) : Nat :=
  l.findIdx fun r => r.name == n

/-! Embedding of the working-directory scope (`working_directory` context
manager and `ProjectAnalyzer.analyze`).  The process working directory is
passed explicitly; a probe pass is a function from the working directory it
starts in to a result (possibly an exception, as `Except.error`) together
with the working directory it leaves behind.  `validDir` abstracts which
paths `os.chdir` accepts. -/

/-- Embedding of the `working_directory` context manager: record the previous
working directory, `os.chdir(path)` (before the `try`: if it raises, the
exception propagates with the working directory unchanged), run the body, and
in the `finally` block unconditionally `os.chdir(prev_cwd)` — also when the
body raised. -/
def working_directory {α : Type} (validDir : String → Bool) (path : String)
    (body : String → Except String α × String) (cwd0 : String) :
    Except String α × String :=
  let prev_cwd := cwd0
  if validDir path then
    let r := body path
    (r.1, prev_cwd)
  else
    (Except.error "chdir: no such directory", cwd0)

/-- Embedding of `ProjectAnalyzer.analyze`: run the probe pass with the
working directory switched to the project path for its duration. -/
def analyze (validDir : String → Bool) (project_path : String)
    (probes : String → Except String (List ProjectFeature) × String)
    (cwd0 : String) : Except String (List ProjectFeature) × String :=
  working_directory validDir project_path probes cwd0

/-- The invariant of the deduplication loop: `d` is the state of the
insertion-ordered dict after processing candidate list `l`.  Its entries have
pairwise-distinct ids, every proposed id is covered, every entry is the
first-emitted candidate attaining the maximum weight for its id (everything
with the same id strictly before it is strictly lighter, everything after is
no heavier), and entries are ordered by the first-emission position of their
ids. -/
structure DedupInv (l d : List RuleRecommendation) : Prop where
  nodupNames : (d.map fun r => r.name).Nodup
  cover : ∀ c ∈ l, ∃ r ∈ d, r.name = c.name
  split : ∀ r ∈ d, ∃ l1 l2, l = l1 ++ r :: l2 ∧
      (∀ c ∈ l1, c.name = r.name → c.weight < r.weight) ∧
      (∀ c ∈ l2, c.name = r.name → c.weight ≤ r.weight)
  order : (d.map fun r => r.name).Pairwise fun a b => idxOfName l a < idxOfName l b

/-- Properties every raw candidate satisfies: only the meta tracker carries
the id `rule-effectiveness-tracker` (and it is exactly `trackerRec`, of
weight `5`); every other candidate weighs at least `6`; and whenever a
candidate's id is present in the built-in default table, its weight and
category agree with that table entry. -/
abbrev CandidateShape (c : RuleRecommendation) : Prop :=
  (c.name = "rule-effectiveness-tracker" → c = trackerRec) ∧
  (c.name ≠ "rule-effectiveness-tracker" → 6 ≤ c.weight) ∧
  (get_default_config.lookup c.name).all
    (fun d => c.weight == d.weight && c.category == d.category) = true

/-- Profile used for the §8 scenario: `project_size=large`, one `languages`
fact `python`, `team_size=large`, `has_testing=true`, `has_git=true`. -/
def scenarioProfile : List ProjectFeature :=
  [⟨"project_size", "large", "项目规模: large"⟩,
   ⟨"languages", "python", "检测到语言: python"⟩,
   ⟨"team_size", "large", "团队规模: large"⟩,
   ⟨"has_testing", "true", "包含测试"⟩,
   ⟨"has_git", "true", "Git项目"⟩]

/-- A configuration document that assigns `implement-task` weight `3` —
used to test whether the engine consumes the loaded table. -/
def overrideConfig : RuleConfig :=
  [("implement-task", ⟨"custom", "任务实现规则", 3, []⟩)]

/-- A profile holding two facts with the same key `project_size`. -/
def dupKeyProfileA : List ProjectFeature :=
  [⟨"project_size", "large", "d1"⟩, ⟨"project_size", "small", "d2"⟩]

/-- The same two facts as `dupKeyProfileA`, in the opposite order. -/
def dupKeyProfileB : List ProjectFeature :=
  [⟨"project_size", "small", "d2"⟩, ⟨"project_size", "large", "d1"⟩]

end Grule

namespace Grule

/-! Lemmas about the stable weight-descending sort. -/

theorem perm_insertByWeight (x : RuleRecommendation) (l : List RuleRecommendation) :
    (insertByWeight x l).Perm (x :: l) := by
  induction l with
  | nil => exact List.Perm.refl _
  | cons y ys ih =>
    by_cases h : y.weight ≤ x.weight
    · simp [insertByWeight, h]
    · simp only [insertByWeight, if_neg h]
      exact (ih.cons y).trans (List.Perm.swap x y ys)

theorem sortByWeightDesc_perm (l : List RuleRecommendation) :
    (sortByWeightDesc l).Perm l := by
  induction l with
  | nil => exact List.Perm.refl _
  | cons x xs ih =>
    exact (perm_insertByWeight x (sortByWeightDesc xs)).trans (ih.cons x)

theorem pairwise_insertByWeight (x : RuleRecommendation) (l : List RuleRecommendation)
    (h : l.Pairwise fun a b => b.weight ≤ a.weight) :
    (insertByWeight x l).Pairwise fun a b => b.weight ≤ a.weight := by
  induction l with
  | nil => simp [insertByWeight]
  | cons y ys ih =>
    rcases h with _ | ⟨hy, hys⟩
    by_cases hxy : y.weight ≤ x.weight
    · simp only [insertByWeight, if_pos hxy]
      exact .cons (by
        intro z hz
        rcases List.mem_cons.mp hz with rfl | hz
        · exact hxy
        · exact (hy z hz).trans hxy) (.cons hy hys)
    · simp only [insertByWeight, if_neg hxy]
      refine .cons ?_ (ih hys)
      intro z hz
      rcases List.mem_cons.mp ((perm_insertByWeight x ys).mem_iff.mp hz) with rfl | hz
      · exact Nat.le_of_lt (Nat.lt_of_not_le hxy)
      · exact hy z hz

theorem sortByWeightDesc_pairwise (l : List RuleRecommendation) :
    (sortByWeightDesc l).Pairwise fun a b => b.weight ≤ a.weight := by
  induction l with
  | nil => simp [sortByWeightDesc]
  | cons x xs ih => exact pairwise_insertByWeight x (sortByWeightDesc xs) ih

theorem filter_insertByWeight (w : Nat) (x : RuleRecommendation)
    (l : List RuleRecommendation) :
    (insertByWeight x l).filter (fun r => r.weight == w) =
      if x.weight = w then x :: l.filter (fun r => r.weight == w)
      else l.filter (fun r => r.weight == w) := by
  induction l with
  | nil =>
    by_cases hx : x.weight = w <;>
      simp [insertByWeight, List.filter_cons, List.filter_nil, hx]
  | cons y ys ih =>
    by_cases hxy : y.weight ≤ x.weight
    · rw [insertByWeight, if_pos hxy, List.filter_cons, List.filter_cons]
      by_cases hx : x.weight = w <;> by_cases hy : y.weight = w <;>
        simp [hx, hy, List.filter_cons]
    · rw [insertByWeight, if_neg hxy, List.filter_cons, List.filter_cons, ih]
      by_cases hx : x.weight = w
      · have hyw : ¬ y.weight = w := by
          intro hyw
          exact hxy (by omega)
        simp [hx, hyw]
      · by_cases hy : y.weight = w <;> simp [hx, hy]

theorem sortByWeightDesc_filter (w : Nat) (l : List RuleRecommendation) :
    (sortByWeightDesc l).filter (fun r => r.weight == w) =
      l.filter (fun r => r.weight == w) := by
  induction l with
  | nil => rfl
  | cons x xs ih =>
    show ((insertByWeight x (sortByWeightDesc xs)).filter _) = _
    rw [filter_insertByWeight, List.filter_cons, ih]
    by_cases hx : x.weight = w <;> simp [hx]

/-! Lemmas about the deduplication loop. -/

theorem dedup_append_singleton (l : List RuleRecommendation) (c : RuleRecommendation) :
    dedup (l ++ [c]) = dedupStep (dedup l) c := by
  simp [dedup, List.foldl_append]

theorem idxOfName_lt_length {l : List RuleRecommendation} {n : String}
    (h : ∃ r ∈ l, r.name = n) : idxOfName l n < l.length := by
  refine List.findIdx_lt_length.mpr ?_
  obtain ⟨r, hr, he⟩ := h
  exact ⟨r, hr, by simp [he]⟩

theorem idxOfName_append_left {l : List RuleRecommendation} {n : String}
    (h : ∃ r ∈ l, r.name = n) (l2 : List RuleRecommendation) :
    idxOfName (l ++ l2) n = idxOfName l n := by
  unfold idxOfName
  rw [List.findIdx_append]
  exact if_pos (idxOfName_lt_length h)

theorem idxOfName_append_fresh {l : List RuleRecommendation} {n : String}
    (h : ∀ r ∈ l, r.name ≠ n) {c : RuleRecommendation} (hc : c.name = n) :
    idxOfName (l ++ [c]) n = l.length := by
  unfold idxOfName
  rw [List.findIdx_append, if_neg, List.findIdx_cons]
  · simp [hc]
  · intro hlt
    obtain ⟨r, hr, he⟩ := List.findIdx_lt_length.mp hlt
    exact h r hr (by simpa using he)

theorem eq_of_name_eq_of_nodupNames {m : List RuleRecommendation}
    (hnd : (m.map fun r => r.name).Nodup) {a b : RuleRecommendation}
    (ha : a ∈ m) (hb : b ∈ m) (hn : a.name = b.name) : a = b := by
  by_contra hne
  have hpw : m.Pairwise fun x y => x.name ≠ y.name := List.pairwise_map.mp hnd
  have hsymm : Symmetric fun x y : RuleRecommendation => x.name ≠ y.name := by
    intro x y h e
    exact h e.symm
  exact hpw.forall hsymm ha hb hne hn

theorem DedupInv.mem_raw {l d : List RuleRecommendation} (h : DedupInv l d)
    {r : RuleRecommendation} (hr : r ∈ d) : r ∈ l := by
  obtain ⟨l1, l2, he, -, -⟩ := h.split r hr
  rw [he]
  exact List.mem_append.mpr (Or.inr (List.mem_cons_self r l2))

theorem DedupInv.maxw {l d : List RuleRecommendation} (h : DedupInv l d)
    {r : RuleRecommendation} (hr : r ∈ d) {x : RuleRecommendation} (hx : x ∈ l)
    (hn : x.name = r.name) : x.weight ≤ r.weight := by
  obtain ⟨l1, l2, he, h1, h2⟩ := h.split r hr
  subst he
  rcases List.mem_append.mp hx with hm | hm
  · exact Nat.le_of_lt (h1 x hm hn)
  · rcases List.mem_cons.mp hm with rfl | hm
    · exact Nat.le_refl _
    · exact h2 x hm hn

theorem DedupInv.name_mem {l d : List RuleRecommendation} (h : DedupInv l d)
    {a : String} (ha : a ∈ d.map fun r => r.name) : ∃ r ∈ l, r.name = a := by
  obtain ⟨r, hr, rfl⟩ := List.mem_map.mp ha
  exact ⟨r, h.mem_raw hr, rfl⟩

theorem order_extend {l d : List RuleRecommendation} {c : RuleRecommendation}
    (hd : ∀ a ∈ d.map fun r => r.name, ∃ r ∈ l, r.name = a)
    (h : (d.map fun r => r.name).Pairwise fun a b => idxOfName l a < idxOfName l b) :
    (d.map fun r => r.name).Pairwise
      fun a b => idxOfName (l ++ [c]) a < idxOfName (l ++ [c]) b := by
  refine h.imp_of_mem ?_
  intro a b ha hb hab
  rw [idxOfName_append_left (hd _ ha) [c], idxOfName_append_left (hd _ hb) [c]]
  exact hab

theorem dedup_inv (l : List RuleRecommendation) : DedupInv l (dedup l) := by
  induction l using List.reverseRecOn with
  | nil =>
    exact ⟨by simp [dedup], by simp, by simp [dedup], by simp [dedup]⟩
  | append_singleton l c ih =>
    rw [dedup_append_singleton]
    cases hfind : (dedup l).find? (fun r => r.name == c.name) with
    | none =>
      have hnotin : ∀ r ∈ dedup l, r.name ≠ c.name := by
        intro r hr
        simpa using List.find?_eq_none.mp hfind r hr
      have hnew : ∀ x ∈ l, x.name ≠ c.name := by
        intro x hx he
        obtain ⟨r, hr, hrn⟩ := ih.cover x hx
        exact hnotin r hr (hrn.trans he)
      simp only [dedupStep, hfind]
      refine ⟨?_, ?_, ?_, ?_⟩
      · rw [List.map_append]
        refine List.Nodup.append ih.nodupNames (by simp) ?_
        intro a ha hb
        obtain ⟨r, hr, rfl⟩ := List.mem_map.mp ha
        simp only [List.map_cons, List.map_nil, List.mem_singleton] at hb
        exact hnotin r hr hb
      · intro x hx
        rcases List.mem_append.mp hx with hm | hm
        · obtain ⟨r, hr, hrn⟩ := ih.cover x hm
          exact ⟨r, List.mem_append.mpr (Or.inl hr), hrn⟩
        · have hxc : x = c := List.mem_singleton.mp hm
          rw [hxc]
          exact ⟨c, List.mem_append.mpr (Or.inr (by simp)), rfl⟩
      · intro r hr
        rcases List.mem_append.mp hr with hm | hm
        · obtain ⟨l1, l2, he, h1, h2⟩ := ih.split r hm
          refine ⟨l1, l2 ++ [c], by rw [he]; simp, h1, ?_⟩
          intro z hz hzn
          rcases List.mem_append.mp hz with hz | hz
          · exact h2 z hz hzn
          · have hzc : z = c := List.mem_singleton.mp hz
            rw [hzc] at hzn
            exact absurd hzn.symm (hnotin r hm)
        · have hrc : r = c := List.mem_singleton.mp hm
          rw [hrc]
          refine ⟨l, [], rfl, ?_, by simp⟩
          intro z hz hzn
          exact absurd hzn (hnew z hz)
      · rw [List.map_append]
        refine List.pairwise_append.mpr
          ⟨order_extend (fun a ha => ih.name_mem ha) ih.order, by simp, ?_⟩
        intro a ha b hb
        simp only [List.map_cons, List.map_nil, List.mem_singleton] at hb
        rw [hb, idxOfName_append_fresh hnew rfl,
          idxOfName_append_left (ih.name_mem ha) [c]]
        exact idxOfName_lt_length (ih.name_mem ha)
    | some old =>
      have hold_mem : old ∈ dedup l := List.mem_of_find?_eq_some hfind
      have hold_name : old.name = c.name := by simpa using List.find?_some hfind
      have huniq : ∀ r ∈ dedup l, r.name = c.name → r = old := fun r hr hn =>
        eq_of_name_eq_of_nodupNames ih.nodupNames hr hold_mem
          (hn.trans hold_name.symm)
      by_cases hw : old.weight < c.weight
      · -- the new candidate is strictly heavier: full in-place replacement
        simp only [dedupStep, hfind, if_pos hw]
        have hgname : ∀ r : RuleRecommendation,
            ((fun r => if r.name == c.name then c else r) r).name = r.name := by
          intro r
          by_cases h : r.name = c.name <;> simp [h]
        have hmapname :
            ((dedup l).map fun r => if r.name == c.name then c else r).map
              (fun r => r.name) = (dedup l).map fun r => r.name := by
          rw [List.map_map]
          exact List.map_congr_left fun a _ => hgname a
        refine ⟨?_, ?_, ?_, ?_⟩
        · rw [hmapname]
          exact ih.nodupNames
        · intro x hx
          rcases List.mem_append.mp hx with hm | hm
          · obtain ⟨r, hr, hrn⟩ := ih.cover x hm
            exact ⟨(fun r => if r.name == c.name then c else r) r,
              List.mem_map_of_mem _ hr, (hgname r).trans hrn⟩
          · have hxc : x = c := List.mem_singleton.mp hm
            rw [hxc]
            refine ⟨c, ?_, rfl⟩
            have hg : (fun r => if r.name == c.name then c else r) old = c := by
              simp [hold_name]
            have hmem : (fun r => if r.name == c.name then c else r) old ∈
                (dedup l).map fun r => if r.name == c.name then c else r :=
              List.mem_map_of_mem _ hold_mem
            rw [hg] at hmem
            exact hmem
        · intro x hx
          obtain ⟨r, hr, hgr⟩ := List.mem_map.mp hx
          by_cases hrn : r.name = c.name
          · have hro : r = old := huniq r hr hrn
            have hxc : x = c := by
              rw [← hgr]
              simp [hrn]
            rw [hxc]
            refine ⟨l, [], rfl, ?_, by simp⟩
            intro z hz hzn
            have hzle : z.weight ≤ old.weight :=
              ih.maxw hold_mem hz (hzn.trans hold_name.symm)
            exact Nat.lt_of_le_of_lt hzle hw
          · have hxr : x = r := by
              rw [← hgr]
              simp [hrn]
            rw [hxr]
            obtain ⟨l1, l2, he, h1, h2⟩ := ih.split r hr
            refine ⟨l1, l2 ++ [c], by rw [he]; simp, h1, ?_⟩
            intro z hz hzn
            rcases List.mem_append.mp hz with hz | hz
            · exact h2 z hz hzn
            · have hzc : z = c := List.mem_singleton.mp hz
              rw [hzc] at hzn
              exact absurd hzn.symm hrn
        · rw [hmapname]
          exact order_extend (fun a ha => ih.name_mem ha) ih.order
      · -- equal or lower weight: the stored candidate is kept unchanged
        simp only [dedupStep, hfind, if_neg hw]
        refine ⟨ih.nodupNames, ?_, ?_,
          order_extend (fun a ha => ih.name_mem ha) ih.order⟩
        · intro x hx
          rcases List.mem_append.mp hx with hm | hm
          · exact ih.cover x hm
          · have hxc : x = c := List.mem_singleton.mp hm
            rw [hxc]
            exact ⟨old, hold_mem, hold_name⟩
        · intro r hr
          obtain ⟨l1, l2, he, h1, h2⟩ := ih.split r hr
          refine ⟨l1, l2 ++ [c], by rw [he]; simp, h1, ?_⟩
          intro z hz hzn
          rcases List.mem_append.mp hz with hz | hz
          · exact h2 z hz hzn
          · have hzc : z = c := List.mem_singleton.mp hz
            have hro : r = old := huniq r hr (by rw [← hzc, hzn])
            rw [hzc, hro]
            exact Nat.le_of_not_lt hw

/-! Shape facts about the emitted candidates, by case analysis over the rule
blocks of `recommend_rules`. -/

theorem coreRecs_shape : ∀ c ∈ coreRecs, CandidateShape c := by decide

theorem sizeRecs_shape (s : String) : ∀ c ∈ sizeRecs s, CandidateShape c := by
  intro c hc
  unfold sizeRecs at hc
  split at hc
  · simp only [List.mem_cons, List.not_mem_nil, or_false] at hc
    rcases hc with rfl | rfl | rfl <;> decide
  · split at hc
    · simp only [List.mem_cons, List.not_mem_nil, or_false] at hc
      rcases hc with rfl | rfl <;> decide
    · simp only [List.mem_cons, List.not_mem_nil, or_false] at hc
      rcases hc with rfl | rfl <;> decide

theorem langRecs_shape (lang : String) : ∀ c ∈ langRecs lang, CandidateShape c := by
  intro c hc
  unfold langRecs at hc
  split at hc
  · simp only [List.mem_singleton] at hc
    rcases hc with rfl
    decide
  · split at hc
    · simp only [List.mem_singleton] at hc
      rcases hc with rfl
      refine ⟨fun h => absurd h (by simp), fun _ => ?_, ?_⟩
      · show (6 : Nat) ≤ 7
        decide
      · show (get_default_config.lookup "code-analysis").all
          (fun d => (7 : Nat) == d.weight && "quality" == d.category) = true
        decide
    · cases hc

theorem teamRecs_shape (s : String) : ∀ c ∈ teamRecs s, CandidateShape c := by
  intro c hc
  unfold teamRecs at hc
  split at hc
  · simp only [List.mem_cons, List.not_mem_nil, or_false] at hc
    rcases hc with rfl | rfl <;> decide
  · cases hc

theorem rawCandidates_shape (f : List ProjectFeature) :
    ∀ c ∈ rawCandidates f, CandidateShape c := by
  intro c hc
  simp only [rawCandidates, List.mem_append] at hc
  rcases hc with ((((((hc | hc) | hc) | hc) | hc) | hc) | hc)
  · exact coreRecs_shape c hc
  · exact sizeRecs_shape _ c hc
  · obtain ⟨lang, -, hc⟩ := List.mem_flatMap.mp hc
    exact langRecs_shape lang c hc
  · exact teamRecs_shape _ c hc
  · split at hc
    · simp only [List.mem_singleton] at hc
      rcases hc with rfl
      decide
    · cases hc
  · split at hc
    · simp only [List.mem_singleton] at hc
      rcases hc with rfl
      decide
    · cases hc
  · simp only [List.mem_singleton] at hc
    rcases hc with rfl
    decide

theorem trackerRec_mem_raw (f : List ProjectFeature) :
    trackerRec ∈ rawCandidates f := by
  unfold rawCandidates
  exact List.mem_append.mpr (Or.inr (by simp))

theorem coreRecs_sub_raw (f : List ProjectFeature) :
    ∀ c ∈ coreRecs, c ∈ rawCandidates f := by
  intro c hc
  simp only [rawCandidates, List.mem_append]
  exact Or.inl (Or.inl (Or.inl (Or.inl (Or.inl (Or.inl hc)))))

theorem mem_recommend_rules_iff {cfg : RuleConfig} {f : List ProjectFeature}
    {r : RuleRecommendation} :
    r ∈ recommend_rules cfg f ↔ r ∈ dedup (rawCandidates f) :=
  (sortByWeightDesc_perm _).mem_iff

/-! Claim theorems. -/

/-- C1: for every input list of rule candidates (every profile and
configuration), the output of `recommend_rules` contains each rule id at most
once; each retained candidate is one of the raw candidates and carries the
maximum weight among all raw candidates proposing its id (and every proposed
id is retained); the output is ordered by weight non-increasing; and ties
between distinct ids are resolved by the position at which the tied ids were
first emitted in the raw candidate list (a stable sort). -/
theorem recommend_rules_unique_max_sorted_stable (cfg : RuleConfig)
    (features : List ProjectFeature) :
    (((recommend_rules cfg features).map fun r => r.name).Nodup) ∧
    (∀ r ∈ recommend_rules cfg features, r ∈ rawCandidates features ∧
      ∀ c ∈ rawCandidates features, c.name = r.name → c.weight ≤ r.weight) ∧
    (∀ c ∈ rawCandidates features, ∃ r ∈ recommend_rules cfg features,
      r.name = c.name) ∧
    ((recommend_rules cfg features).Pairwise fun a b => b.weight ≤ a.weight) ∧
    ((recommend_rules cfg features).Pairwise fun a b => a.weight = b.weight →
      idxOfName (rawCandidates features) a.name <
        idxOfName (rawCandidates features) b.name) := by
  have hperm : (recommend_rules cfg features).Perm (dedup (rawCandidates features)) :=
    sortByWeightDesc_perm _
  have hinv := dedup_inv (rawCandidates features)
  refine ⟨?_, ?_, ?_, sortByWeightDesc_pairwise _, ?_⟩
  · exact ((hperm.map fun r => r.name).symm).nodup hinv.nodupNames
  · intro r hr
    have hrd : r ∈ dedup (rawCandidates features) := hperm.mem_iff.mp hr
    exact ⟨hinv.mem_raw hrd, fun c hc hn => hinv.maxw hrd hc hn⟩
  · intro c hc
    obtain ⟨r, hrd, hrn⟩ := hinv.cover c hc
    exact ⟨r, hperm.mem_iff.mpr hrd, hrn⟩
  · rw [List.pairwise_iff_forall_sublist]
    intro a b hab hw
    have hfil : [a, b].filter (fun r => r.weight == a.weight) = [a, b] := by
      simp [List.filter_cons, hw]
    have h1 : [a, b].Sublist
        ((sortByWeightDesc (dedup (rawCandidates features))).filter
          fun r => r.weight == a.weight) := by
      have := List.Sublist.filter (fun r => r.weight == a.weight) hab
      rwa [hfil] at this
    rw [sortByWeightDesc_filter] at h1
    have h3 : [a, b].Sublist (dedup (rawCandidates features)) :=
      h1.trans (List.filter_sublist _)
    have h4 : [a.name, b.name].Sublist
        ((dedup (rawCandidates features)).map fun r => r.name) := by
      have := List.Sublist.map (fun r => r.name) h3
      simpa using this
    exact List.pairwise_iff_forall_sublist.mp hinv.order h4

/-- C1 witness: the invariant instantiated at the default configuration and
the empty profile, from which the unique-ids conjunct is extracted. -/
theorem recommend_rules_unique_max_sorted_stable_witness :
    ((recommend_rules get_default_config []).map fun r => r.name).Nodup :=
  (recommend_rules_unique_max_sorted_stable get_default_config []).1

/-- The last-wins dict lookup is determined by the sub-sequence of facts
with the looked-up key. -/
theorem featureGet?_eq_filter (p : List ProjectFeature) (k : String) :
    featureGet? p k =
      ((p.filter fun f => f.key == k).getLast?).map fun f => f.value := by
  have h1 : p.reverse.find? (fun f => f.key == k) =
      (p.reverse.filter fun f => f.key == k).head? :=
    (List.filter_head? _ _).symm
  rw [List.filter_reverse, List.head?_reverse] at h1
  unfold featureGet?
  rw [h1]

/-- The languages list is the key-filtered sub-sequence of fact values. -/
theorem languagesOf_eq_filter (p : List ProjectFeature) :
    languagesOf p =
      (p.filter fun f => f.key == "languages").map fun f => f.value := by
  induction p with
  | nil => rfl
  | cons f fs ih =>
    show List.filterMap _ (f :: fs) = _
    rw [List.filterMap_cons, List.filter_cons]
    by_cases hk : (f.key == "languages") = true
    · simp only [hk, if_pos, List.map_cons]
      rw [← ih]
      rfl
    · simp only [hk, if_neg, Bool.false_eq_true, not_false_iff]
      rw [← ih]
      rfl

/-- Every raw candidate's id is retained in the ranked output. -/
theorem name_mem_recommend_rules (cfg : RuleConfig) {f : List ProjectFeature}
    {c : RuleRecommendation} (hc : c ∈ rawCandidates f) :
    ∃ r ∈ recommend_rules cfg f, r.name = c.name := by
  obtain ⟨r, hrd, hrn⟩ := (dedup_inv (rawCandidates f)).cover c hc
  exact ⟨r, mem_recommend_rules_iff.mpr hrd, hrn⟩

/-- In a pairwise-related list, every element equals the last element or is
related to it. -/
theorem pairwise_rel_getLast {α : Type} {R : α → α → Prop} :
    ∀ {l : List α} {b : α}, l.Pairwise R → l.getLast? = some b →
      ∀ a ∈ l, a = b ∨ R a b := by
  intro l
  induction l with
  | nil =>
    intro b _ hb
    cases hb
  | cons x xs ih =>
    intro b hpw hb a ha
    cases xs with
    | nil =>
      rw [List.getLast?_singleton] at hb
      have hxb : x = b := by
        injection hb
      rcases List.mem_singleton.mp ha with rfl
      exact Or.inl hxb
    | cons y ys =>
      rw [List.getLast?_cons_cons] at hb
      rcases hpw with _ | ⟨hx, hpw2⟩
      rcases List.mem_cons.mp ha with rfl | ha2
      · exact Or.inr (hx b (List.mem_of_mem_getLast? (Option.mem_def.mpr hb)))
      · exact ih hpw2 hb a ha2

/-- C2: for the §8 scenario profile (`project_size=large`,
`languages=python`, `team_size=large`, `has_testing=true`, `has_git=true`)
the ranked output consists exactly of the ten claimed ids with the claimed
weights — in particular `code-analysis` retains the size-branch weight `9`
over the language-branch `7` — and the output is ordered non-increasingly by
weight, so every claimed pair with distinct weights appears in the claimed
relative order. -/
theorem recommend_rules_scenario_large_python :
    (recommend_rules get_default_config scenarioProfile).map
        (fun r => (r.name, r.weight)) =
      [("implement-task", 10), ("bug-fix", 10), ("code-analysis", 9),
       ("quick-wins", 8), ("pr-review", 8), ("five", 8), ("commit", 8),
       ("continuous-improvement", 7), ("add-to-changelog", 6),
       ("rule-effectiveness-tracker", 5)] ∧
    ((recommend_rules get_default_config scenarioProfile).Pairwise
      fun a b => b.weight ≤ a.weight) := by
  exact ⟨by decide, sortByWeightDesc_pairwise _⟩

/-- C3: the candidate stored for an id by the deduplication loop is the
first-emitted candidate of maximal weight for that id: every same-id
candidate emitted before it is strictly lighter (so a replacement happened
only on strictly greater weight, taking the whole candidate, reason and
category included), and every same-id candidate emitted after it — equal
weight included — is no heavier (so it was kept entirely, reason included). -/
theorem dedup_keeps_first_strict_max (l : List RuleRecommendation) (n : String)
    (r : RuleRecommendation)
    (h : (dedup l).find? (fun x => x.name == n) = some r) :
    r.name = n ∧
    ∃ l1 l2, l.filter (fun c => c.name == n) = l1 ++ r :: l2 ∧
      (∀ c ∈ l1, c.weight < r.weight) ∧ (∀ c ∈ l2, c.weight ≤ r.weight) := by
  have hrd : r ∈ dedup l := List.mem_of_find?_eq_some h
  have hrn : r.name = n := by simpa using List.find?_some h
  obtain ⟨l1, l2, he, h1, h2⟩ := (dedup_inv l).split r hrd
  refine ⟨hrn, l1.filter (fun c => c.name == n),
    l2.filter (fun c => c.name == n), ?_, ?_, ?_⟩
  · rw [he, List.filter_append, List.filter_cons, if_pos (by simp [hrn])]
  · intro c hc
    obtain ⟨hcl, hcn⟩ := List.mem_filter.mp hc
    exact h1 c hcl ((by simpa using hcn : c.name = n).trans hrn.symm)
  · intro c hc
    obtain ⟨hcl, hcn⟩ := List.mem_filter.mp hc
    exact h2 c hcl ((by simpa using hcn : c.name = n).trans hrn.symm)

/-- C3 witness: two candidates share the id `a`; the stored one is the
first-emitted heavier one, at a concrete input. -/
theorem dedup_keeps_first_strict_max_witness :
    (⟨"a", "r1", 9, "q"⟩ : RuleRecommendation).name = "a" ∧
    ∃ l1 l2,
      ([⟨"a", "r1", 9, "q"⟩, ⟨"a", "r2", 7, "q"⟩] :
          List RuleRecommendation).filter (fun c => c.name == "a") =
        l1 ++ (⟨"a", "r1", 9, "q"⟩ : RuleRecommendation) :: l2 ∧
      (∀ c ∈ l1, c.weight < (⟨"a", "r1", 9, "q"⟩ : RuleRecommendation).weight) ∧
      (∀ c ∈ l2, c.weight ≤ (⟨"a", "r1", 9, "q"⟩ : RuleRecommendation).weight) :=
  dedup_keeps_first_strict_max
    [⟨"a", "r1", 9, "q"⟩, ⟨"a", "r2", 7, "q"⟩] "a" ⟨"a", "r1", 9, "q"⟩
    (by decide)

/-- C4 counterexample: with a loaded configuration that assigns
`implement-task` weight `3` and category `custom`, the engine still emits
the hard-coded weight `10` and category `core` — candidates do not carry the
weight and category of the loaded table entry for their id. -/
theorem recommend_rules_ignores_loaded_table :
    ¬ (∀ r ∈ recommend_rules overrideConfig [],
        ∀ d : RuleDefinition, overrideConfig.lookup r.name = some d →
          r.weight = d.weight ∧ r.category = d.category) := by
  intro h
  have hm : (⟨"implement-task", "核心开发流程规则", 10, "core"⟩ :
      RuleRecommendation) ∈ recommend_rules overrideConfig [] := by decide
  have hd := h _ hm ⟨"custom", "任务实现规则", 3, []⟩ (by decide)
  exact absurd hd.1 (by decide)

/-- C4 amended: the engine never consults the loaded configuration — the
output is identical for any two loaded tables — and for every id present in
the built-in default table the emitted candidate does carry that table
entry's weight and category, because the hard-coded values coincide with
the default table. -/
theorem recommend_rules_config_independent (cfg cfg2 : RuleConfig)
    (f : List ProjectFeature) :
    recommend_rules cfg f = recommend_rules cfg2 f ∧
    (∀ r ∈ recommend_rules cfg f, ∀ d : RuleDefinition,
      get_default_config.lookup r.name = some d →
        r.weight = d.weight ∧ r.category = d.category) := by
  refine ⟨rfl, ?_⟩
  intro r hr d hd
  have hraw : r ∈ rawCandidates f :=
    (dedup_inv (rawCandidates f)).mem_raw (mem_recommend_rules_iff.mp hr)
  have hshape := (rawCandidates_shape f r hraw).2.2
  rw [hd] at hshape
  simp only [Option.all_some, Bool.and_eq_true, beq_iff_eq] at hshape
  exact hshape

/-- C4 amended, witness: the output under the override table equals the
output under the default table at a concrete profile. -/
theorem recommend_rules_config_independent_witness :
    recommend_rules overrideConfig [] = recommend_rules get_default_config [] :=
  (recommend_rules_config_independent overrideConfig get_default_config []).1

/-- C5: on the empty profile the engine is total by construction and returns
the non-empty list `implement-task`, `bug-fix`, `quick-wins`, `clean`,
`commit`, `rule-effectiveness-tracker` — the size block takes its `small`
default branch, the team and toolchain blocks their absent branches. -/
theorem recommend_rules_empty_profile :
    recommend_rules get_default_config [] ≠ [] ∧
    (recommend_rules get_default_config []).map (fun r => (r.name, r.weight)) =
      [("implement-task", 10), ("bug-fix", 10), ("quick-wins", 8),
       ("clean", 7), ("commit", 6), ("rule-effectiveness-tracker", 5)] := by
  decide

/-- C6: for every profile whatsoever (and every loaded table), the output
contains candidates with ids `implement-task`, `bug-fix`, `quick-wins` and
`rule-effectiveness-tracker`. -/
theorem recommend_rules_always_core_and_tracker (cfg : RuleConfig)
    (f : List ProjectFeature) :
    (∃ r ∈ recommend_rules cfg f, r.name = "implement-task") ∧
    (∃ r ∈ recommend_rules cfg f, r.name = "bug-fix") ∧
    (∃ r ∈ recommend_rules cfg f, r.name = "quick-wins") ∧
    (∃ r ∈ recommend_rules cfg f, r.name = "rule-effectiveness-tracker") := by
  refine ⟨?_, ?_, ?_, ?_⟩
  · exact name_mem_recommend_rules cfg (coreRecs_sub_raw f
      ⟨"implement-task", "核心开发流程规则", 10, "core"⟩ (by simp [coreRecs]))
  · exact name_mem_recommend_rules cfg (coreRecs_sub_raw f
      ⟨"bug-fix", "核心开发流程规则", 10, "core"⟩ (by simp [coreRecs]))
  · exact name_mem_recommend_rules cfg (coreRecs_sub_raw f
      ⟨"quick-wins", "快速胜利策略", 8, "productivity"⟩ (by simp [coreRecs]))
  · exact name_mem_recommend_rules cfg (trackerRec_mem_raw f)

/-- C7: constructing the engine never fails because of the configuration
document: `load_config` is total, and on a missing or unreadable/unparsable
file it returns the built-in default table, which contains `implement-task`,
`bug-fix` and `quick-wins`. -/
theorem load_config_fallback :
    load_config .missing = get_default_config ∧
    load_config .unreadable = get_default_config ∧
    (get_default_config.lookup "implement-task").isSome = true ∧
    (get_default_config.lookup "bug-fix").isSome = true ∧
    (get_default_config.lookup "quick-wins").isSome = true := by
  decide

/-- C8 counterexample: two profiles that are permutations of one another —
two facts with the same key `project_size` in the two orders — produce
different outputs: the Python dict comprehension keeps the last occurrence
of a key, so the order of same-key facts matters. -/
theorem recommend_rules_not_permutation_invariant :
    dupKeyProfileA.Perm dupKeyProfileB ∧
    recommend_rules get_default_config dupKeyProfileA ≠
      recommend_rules get_default_config dupKeyProfileB := by
  refine ⟨by decide, by decide⟩

/-- C8 amended: the output is invariant under any reordering of the
profile's facts that preserves the relative order of facts sharing a key
(for each key, the filtered sub-sequence is unchanged) — the engine consumes
the profile only through the per-key last occurrence and the ordered list of
`languages` values. -/
theorem recommend_rules_key_grouping_invariant (cfg : RuleConfig)
    (p1 p2 : List ProjectFeature)
    (h : ∀ k, p1.filter (fun f => f.key == k) = p2.filter (fun f => f.key == k)) :
    recommend_rules cfg p1 = recommend_rules cfg p2 := by
  have hget : ∀ k, featureGet? p1 k = featureGet? p2 k := by
    intro k
    rw [featureGet?_eq_filter, featureGet?_eq_filter, h k]
  have hlang : languagesOf p1 = languagesOf p2 := by
    rw [languagesOf_eq_filter, languagesOf_eq_filter, h "languages"]
  have hraw : rawCandidates p1 = rawCandidates p2 := by
    unfold rawCandidates featureGetD
    rw [hget "project_size", hget "team_size", hget "has_testing",
      hget "has_git", hlang]
  unfold recommend_rules
  rw [hraw]

/-- C8 amended, witness: swapping two facts with distinct keys leaves the
output unchanged. -/
theorem recommend_rules_key_grouping_invariant_witness :
    recommend_rules get_default_config
        [⟨"languages", "python", "dl"⟩, ⟨"has_git", "true", "dg"⟩] =
      recommend_rules get_default_config
        [⟨"has_git", "true", "dg"⟩, ⟨"languages", "python", "dl"⟩] := by
  apply recommend_rules_key_grouping_invariant
  intro k
  by_cases h1 : (("languages" : String) == k) = true <;>
    by_cases h2 : (("has_git" : String) == k) = true
  · exfalso
    rw [beq_iff_eq] at h1 h2
    exact absurd (h1.trans h2.symm) (by decide)
  · simp [List.filter_cons, h1, h2]
  · simp [List.filter_cons, h1, h2]
  · simp [List.filter_cons, h1, h2]

/-- C9: for every project path and every behavior of the probe pass —
including a probe pass that raises, and including a path `os.chdir`
rejects — the working directory after `analyze` finishes (or after its
exception propagates) equals the working directory current before the
call. -/
theorem analyze_restores_working_directory (validDir : String → Bool)
    (project_path : String)
    (probes : String → Except String (List ProjectFeature) × String)
    (cwd0 : String) :
    (analyze validDir project_path probes cwd0).2 = cwd0 := by
  by_cases hv : validDir project_path = true <;>
    simp [analyze, working_directory, hv]

/-- C10: for every profile and loaded table, the ranked output ends with the
`rule-effectiveness-tracker` candidate of weight `5`, and every other
candidate in the output weighs at least `6`. -/
theorem recommend_rules_tracker_last (cfg : RuleConfig)
    (f : List ProjectFeature) :
    (∃ r, (recommend_rules cfg f).getLast? = some r ∧
      r.name = "rule-effectiveness-tracker" ∧ r.weight = 5) ∧
    (∀ r ∈ recommend_rules cfg f, r.name ≠ "rule-effectiveness-tracker" →
      6 ≤ r.weight) := by
  have hinv := dedup_inv (rawCandidates f)
  have hmemraw : ∀ r ∈ recommend_rules cfg f, r ∈ rawCandidates f :=
    fun r hr => hinv.mem_raw (mem_recommend_rules_iff.mp hr)
  have hshape : ∀ r ∈ recommend_rules cfg f, CandidateShape r :=
    fun r hr => rawCandidates_shape f r (hmemraw r hr)
  have hge6 : ∀ r ∈ recommend_rules cfg f,
      r.name ≠ "rule-effectiveness-tracker" → 6 ≤ r.weight :=
    fun r hr => (hshape r hr).2.1
  refine ⟨?_, hge6⟩
  obtain ⟨t, ht, htn⟩ :=
    name_mem_recommend_rules cfg (trackerRec_mem_raw f)
  have htt : t = trackerRec := (hshape t ht).1 htn
  have hne : recommend_rules cfg f ≠ [] := by
    intro he
    rw [he] at ht
    cases ht
  obtain ⟨b, hb⟩ := Option.isSome_iff_exists.mp (List.getLast?_isSome.mpr hne)
  have hbmem : b ∈ recommend_rules cfg f :=
    List.mem_of_mem_getLast? (Option.mem_def.mpr hb)
  have hlast := pairwise_rel_getLast (sortByWeightDesc_pairwise _) hb t ht
  have hbt : b = trackerRec := by
    rcases hlast with he | hle
    · rw [← he]
      exact htt
    · by_cases hbn : b.name = "rule-effectiveness-tracker"
      · exact (hshape b hbmem).1 hbn
      · exfalso
        have h6 := hge6 b hbmem hbn
        rw [htt] at hle
        simp only [trackerRec] at hle
        omega
  refine ⟨b, hb, ?_, ?_⟩ <;> rw [hbt] <;> rfl

/-- C10 witness: the last-position property at the empty profile. -/
theorem recommend_rules_tracker_last_witness :
    ∃ r, (recommend_rules get_default_config []).getLast? = some r ∧
      r.name = "rule-effectiveness-tracker" ∧ r.weight = 5 :=
  (recommend_rules_tracker_last get_default_config []).1

end Grule
